import Mathlib

/-!
Verification of the numeric core of the finite-difference-diffusion-calculator
repository (file `fft_drawing_app.py`): a raster drawing buffer together with
a centered 2D discrete-Fourier-transform pipeline.

The shallow embedding below translates, from the source:
  * the raster buffer (`Image.new("L", (size, size), color=255)`, `clear`),
  * the normalization `array = 1.0 - np.asarray(image, float) / 255.0`,
  * `np.fft.fft2` (by its documented semantics: a 1-D DFT along the last
    axis followed by a 1-D DFT along the first axis),
  * `np.fft.fftshift` (cyclic roll by `n / 2` along each axis),
  * `np.abs` and `np.log1p`.
Machine floats are modelled by real numbers.
-/

namespace FFTApp

/-- A raster: grid of 8-bit intensity samples, indexed (row, column).
Mirrors the PIL grayscale image backing the Tk canvas.  Only the entries
at indices below the size are relevant. -/
abbrev Raster : Type := ℕ → ℕ → ℕ

/-- A raster is valid when every sample is an 8-bit intensity. -/
def ValidRaster (R : Raster) : Prop := ∀ r c : ℕ, R r c ≤ 255

/-- The blank buffer: `Image.new("L", (size, size), color=255)`. -/
def blank : Raster := fun _ _ => 255

/-- `clear`: discards the drawing and recreates the blank buffer
(source: `clear` calls `_create_drawing_buffer`, which makes a fresh
all-255 image). -/
def clear (_R : Raster) : Raster := blank

/-- The normalization step of `compute_fft`:
`array = np.asarray(self.image, dtype=float) / 255.0; array = 1.0 - array`. -/
noncomputable def normalized (R : Raster) : ℕ → ℕ → ℝ :=
  fun r c => 1 - (R r c : ℝ) / 255

/-- One-dimensional discrete Fourier transform of length `n`
(the documented semantics of `np.fft.fft`):
`A_k = Σ_j a_j exp(-2 π i k j / n)`. -/
noncomputable def dft1 (n : ℕ) (a : ℕ → ℂ) (k : ℕ) : ℂ :=
  ∑ j in Finset.range n,
    a j * Complex.exp (-(2 * (Real.pi : ℂ) * Complex.I) * ((k : ℂ) * (j : ℂ) / (n : ℂ)))

/-- `np.fft.fft2`: the 2-D transform computed by row-column factorization,
a 1-D DFT along the last axis (columns) followed by a 1-D DFT along the
first axis (rows). -/
noncomputable def fft2 (H W : ℕ) (a : ℕ → ℕ → ℂ) : ℕ → ℕ → ℂ :=
  fun u v => dft1 H (fun r => dft1 W (a r) v) u

/-- The reference 2-D DFT exactly as the specification writes it:
`F[u,v] = Σ_{r<H} Σ_{c<W} a[r,c] exp(-2 π i (u r / H + v c / W))`. -/
noncomputable def referenceDFT2 (H W : ℕ) (a : ℕ → ℕ → ℂ) : ℕ → ℕ → ℂ :=
  fun u v => ∑ r in Finset.range H, ∑ c in Finset.range W,
    a r c * Complex.exp (-(2 * (Real.pi : ℂ) * Complex.I) *
      ((u : ℂ) * (r : ℂ) / (H : ℂ) + (v : ℂ) * (c : ℂ) / (W : ℂ)))

/-- Index map of `np.fft.fftshift` along one axis of length `n`:
a cyclic roll by `n / 2`, so output index `i` reads input index
`(i + n - n / 2) % n`. -/
def shiftIndex (n i : ℕ) : ℕ := (i + n - n / 2) % n

/-- `np.fft.fftshift` on an `H × W` array: roll by `H / 2` rows and
`W / 2` columns, moving the zero-frequency entry to the center. -/
def fftshift {α : Type} (H W : ℕ) (a : ℕ → ℕ → α) : ℕ → ℕ → α :=
  fun r c => a (shiftIndex H r) (shiftIndex W c)

/-- `spectrum = np.fft.fftshift(np.fft.fft2(array))` for a size-`N` raster. -/
noncomputable def spectrum (N : ℕ) (R : Raster) : ℕ → ℕ → ℂ :=
  fftshift N N (fft2 N N (fun r c => ((normalized R r c : ℝ) : ℂ)))

/-- `magnitude = np.abs(spectrum)`. -/
noncomputable def magnitude (N : ℕ) (R : Raster) : ℕ → ℕ → ℝ :=
  fun r c => Complex.abs (spectrum N R r c)

/-- `log_magnitude = np.log1p(magnitude)`. -/
noncomputable def logMagnitude (N : ℕ) (R : Raster) : ℕ → ℕ → ℝ :=
  fun r c => Real.log (1 + magnitude N R r c)

/-- The whole transform request `compute(raster) -> (normalized, logMagnitude)`:
both outputs materialized as `N × N` row-major arrays. -/
noncomputable def compute (N : ℕ) (R : Raster) : List (List ℝ) × List (List ℝ) :=
  ((List.range N).map (fun r => (List.range N).map (fun c => normalized R r c)),
   (List.range N).map (fun r => (List.range N).map (fun c => logMagnitude N R r c)))

/-- Modelled from the spec: the Stroke Buffer operation
`drawLine(p0, p1, strokeWidth)`.  The source delegates rasterization to
`PIL.ImageDraw.line`, which is outside the repository; following the
specification's words, a straight line between two integer pixel
coordinates is rasterized with the given width by setting every covered
pixel to intensity 0.  A pixel is covered when its center lies strictly
within distance `width / 2` of the segment; distances are computed
exactly over the rationals. -/
def segParam (p0 p1 q : ℤ × ℤ) : ℚ :=
  max 0 (min 1
    ((((q.1 - p0.1) * (p1.1 - p0.1) + (q.2 - p0.2) * (p1.2 - p0.2) : ℤ) : ℚ) /
     (((p1.1 - p0.1) * (p1.1 - p0.1) + (p1.2 - p0.2) * (p1.2 - p0.2) : ℤ) : ℚ)))

def segDistSq (p0 p1 q : ℤ × ℤ) : ℚ :=
  if (p1.1 - p0.1) * (p1.1 - p0.1) + (p1.2 - p0.2) * (p1.2 - p0.2) = 0 then
    (((q.1 - p0.1) * (q.1 - p0.1) + (q.2 - p0.2) * (q.2 - p0.2) : ℤ) : ℚ)
  else
    (((q.1 - p0.1 : ℤ) : ℚ) - segParam p0 p1 q * ((p1.1 - p0.1 : ℤ) : ℚ)) ^ 2 +
    (((q.2 - p0.2 : ℤ) : ℚ) - segParam p0 p1 q * ((p1.2 - p0.2 : ℤ) : ℚ)) ^ 2

/-- Modelled from the spec: whether the pixel with center `q` is covered
by the width-`w` stroke from `p0` to `p1`. -/
def covers (p0 p1 : ℤ × ℤ) (w : ℕ) (q : ℤ × ℤ) : Bool :=
  decide (4 * segDistSq p0 p1 q < (w : ℚ) * (w : ℚ))

/-- Modelled from the spec: `drawLine` sets every covered pixel of the
raster to intensity 0 (black) and leaves the rest unchanged.  The pixel
at row `r`, column `c` has center `(x, y) = (c, r)`. -/
def drawLine (p0 p1 : ℤ × ℤ) (w : ℕ) (R : Raster) : Raster :=
  fun r c => if covers p0 p1 w ((c : ℤ), (r : ℤ)) then 0 else R r c

/-! ### Shared helper lemmas -/

/-- Rolling forward by `n / 2` then reading through `shiftIndex` is the
identity on indices below `n`. -/
lemma shiftIndex_roll (n i : ℕ) (h : i < n) :
    shiftIndex n ((i + n / 2) % n) = i := by
  have hn : 0 < n := lt_of_le_of_lt (Nat.zero_le i) h
  have hs : n / 2 ≤ n := Nat.div_le_self n 2
  unfold shiftIndex
  have h1 : (i + n / 2) % n + n - n / 2 = (i + n / 2) % n + (n - n / 2) := by omega
  rw [h1]
  have h2 : ((i + n / 2) % n + (n - n / 2)) % n = ((i + n / 2) + (n - n / 2)) % n :=
    (Nat.ModEq.add_right (n - n / 2) (Nat.mod_modEq (i + n / 2) n))
  rw [h2]
  have h3 : i + n / 2 + (n - n / 2) = i + n := by omega
  rw [h3, Nat.add_mod_right, Nat.mod_eq_of_lt h]

/-- `shiftIndex` sends the center index `n / 2` back to `0`. -/
lemma shiftIndex_half (n : ℕ) : shiftIndex n (n / 2) = 0 := by
  unfold shiftIndex
  have h : n / 2 + n - n / 2 = n := by omega
  rw [h, Nat.mod_self]

/-- The zero-frequency coefficient of the 1-D DFT is the plain sum. -/
lemma dft1_zero (n : ℕ) (a : ℕ → ℂ) :
    dft1 n a 0 = ∑ j in Finset.range n, a j := by
  unfold dft1
  refine Finset.sum_congr rfl (fun j _ => ?_)
  simp

/-- The row-column factorization `fft2` computes exactly the reference
double-sum DFT of the specification. -/
lemma fft2_eq_referenceDFT2 (H W : ℕ) (a : ℕ → ℕ → ℂ) (u v : ℕ) :
    fft2 H W a u v = referenceDFT2 H W a u v := by
  unfold fft2 dft1 referenceDFT2
  rw [Finset.sum_congr rfl (fun r _ => Finset.sum_mul _ _ _)]
  refine Finset.sum_congr rfl (fun r _ => ?_)
  refine Finset.sum_congr rfl (fun c _ => ?_)
  rw [mul_assoc, ← Complex.exp_add]
  congr 1
  ring_nf

/-- The 1-D DFT commutes with scaling by a constant. -/
lemma dft1_const_mul (n : ℕ) (a : ℕ → ℂ) (k : ℂ) (m : ℕ) :
    dft1 n (fun j => k * a j) m = k * dft1 n a m := by
  unfold dft1
  rw [Finset.mul_sum]
  refine Finset.sum_congr rfl (fun j _ => ?_)
  ring

/-- `fft2` commutes with scaling by a constant. -/
lemma fft2_const_mul (H W : ℕ) (a : ℕ → ℕ → ℂ) (k : ℂ) (u v : ℕ) :
    fft2 H W (fun r c => k * a r c) u v = k * fft2 H W a u v := by
  unfold fft2
  have h : (fun r => dft1 W (fun c => k * a r c) v) = fun r => k * dft1 W (a r) v := by
    funext r
    exact dft1_const_mul W (a r) k v
  rw [h, dft1_const_mul]

/-- Reading an in-range entry of `(List.range N).map f` with a default
gives the mapped value. -/
lemma getD_map_range {α : Type} (N i : ℕ) (h : i < N) (f : ℕ → α) (d : α) :
    (((List.range N).map f).getD i d) = f i := by
  rw [List.getD_eq_getElem _ _ (by simpa using h)]
  rw [List.getElem_map, List.getElem_range]

/-- Reading an entry of the materialized `N × N` arrays produced by
`compute` gives the corresponding function value. -/
lemma compute_entry (N : ℕ) (R : Raster) (r c : ℕ) (hr : r < N) (hc : c < N) :
    ((compute N R).1.getD r []).getD c 0 = normalized R r c ∧
    ((compute N R).2.getD r []).getD c 0 = logMagnitude N R r c := by
  constructor
  · rw [show (compute N R).1 = (List.range N).map
        (fun r => (List.range N).map (fun c => normalized R r c)) from rfl]
    rw [getD_map_range N r hr, getD_map_range N c hc]
  · rw [show (compute N R).2 = (List.range N).map
        (fun r => (List.range N).map (fun c => logMagnitude N R r c)) from rfl]
    rw [getD_map_range N r hr, getD_map_range N c hc]

/-- Applying a sequence of drawing operations `(p0, p1, width)` to a raster. -/
def applyOps (ops : List ((ℤ × ℤ) × (ℤ × ℤ) × ℕ)) (R : Raster) : Raster :=
  ops.foldl (fun S o => drawLine o.1 o.2.1 o.2.2 S) R

/-- A sample array used to instantiate hypotheses of the shift theorems. -/
noncomputable def exArr : ℕ → ℕ → ℂ := fun r c => (r : ℂ) + 2 * (c : ℂ)

/-- The zero-frequency coefficient of the reference DFT is the plain
double sum of the array. -/
lemma referenceDFT2_zero_zero (H W : ℕ) (a : ℕ → ℕ → ℂ) :
    referenceDFT2 H W a 0 0 = ∑ r in Finset.range H, ∑ c in Finset.range W, a r c := by
  unfold referenceDFT2
  refine Finset.sum_congr rfl (fun r _ => Finset.sum_congr rfl (fun c _ => ?_))
  simp

/-- `exp(-π i) = -1`. -/
lemma exp_neg_pi_I : Complex.exp (-((Real.pi : ℂ) * Complex.I)) = -1 := by
  rw [Complex.exp_neg, Complex.exp_pi_mul_I]
  norm_num

/-- The odd coefficient of a length-2 DFT is the difference of the inputs. -/
lemma dft1_two (b : ℕ → ℂ) : dft1 2 b 1 = b 0 - b 1 := by
  unfold dft1
  rw [Finset.sum_range_succ, Finset.sum_range_succ, Finset.sum_range_zero]
  have e0 : -(2 * (Real.pi : ℂ) * Complex.I) *
      (((1 : ℕ) : ℂ) * ((0 : ℕ) : ℂ) / ((2 : ℕ) : ℂ)) = 0 := by
    push_cast
    ring
  have e1 : -(2 * (Real.pi : ℂ) * Complex.I) *
      (((1 : ℕ) : ℂ) * ((1 : ℕ) : ℂ) / ((2 : ℕ) : ℂ)) = -((Real.pi : ℂ) * Complex.I) := by
    push_cast
    ring
  rw [e0, e1, Complex.exp_zero, exp_neg_pi_I]
  ring

/-- A 2×2 raster whose top row is ink (0) and bottom row is blank (255). -/
def raster2 : Raster := fun r _ => if r = 0 then 0 else 255

/-- A constant-1 real array used to instantiate the scaling theorems. -/
noncomputable def exRealArr : ℕ → ℕ → ℝ := fun _ _ => 1

/-! ### Claim theorems -/

/-- C1: for every square raster of size N×N, `compute` produces two output
arrays (normalized and logMagnitude), each of shape N×N, identical to the
shape of the input raster. -/
theorem C1_compute_shape (N : ℕ) (R : Raster) :
    (compute N R).1.length = N ∧ (compute N R).2.length = N ∧
    (compute N R).1.map List.length = List.replicate N N ∧
    (compute N R).2.map List.length = List.replicate N N := by
  refine ⟨by simp [compute], by simp [compute], ?_, ?_⟩
  · rw [show (compute N R).1 = (List.range N).map
        (fun r => (List.range N).map (fun c => normalized R r c)) from rfl]
    rw [List.map_map]
    have h : (List.length ∘ fun r => (List.range N).map
        (fun c => normalized R r c)) = fun _ => N := by
      funext r
      simp
    rw [h, List.map_const', List.length_range]
  · rw [show (compute N R).2 = (List.range N).map
        (fun r => (List.range N).map (fun c => logMagnitude N R r c)) from rfl]
    rw [List.map_map]
    have h : (List.length ∘ fun r => (List.range N).map
        (fun c => logMagnitude N R r c)) = fun _ => N := by
      funext r
      simp
    rw [h, List.map_const', List.length_range]

/-- C2: the normalized array entry at (r, c) equals `1 - v / 255` for the
raster sample `v` there; ink (0) maps to 1 and blank background (255)
maps to 0. -/
theorem C2_normalized_entry (N : ℕ) (R : Raster) (r c : ℕ)
    (hr : r < N) (hc : c < N) :
    ((compute N R).1.getD r []).getD c 0 = 1 - (R r c : ℝ) / 255 ∧
    (R r c = 0 → ((compute N R).1.getD r []).getD c 0 = 1) ∧
    (R r c = 255 → ((compute N R).1.getD r []).getD c 0 = 0) := by
  rw [(compute_entry N R r c hr hc).1]
  unfold normalized
  refine ⟨rfl, ?_, ?_⟩ <;> intro hv <;> rw [hv] <;> norm_num

/-- C2 witness at N = 1, the blank raster, index (0, 0). -/
theorem C2_normalized_entry_witness :
    ((compute 1 blank).1.getD 0 []).getD 0 0 = 1 - (blank 0 0 : ℝ) / 255 ∧
    (blank 0 0 = 0 → ((compute 1 blank).1.getD 0 []).getD 0 0 = 1) ∧
    (blank 0 0 = 255 → ((compute 1 blank).1.getD 0 []).getD 0 0 = 0) :=
  C2_normalized_entry 1 blank 0 0 (by norm_num) (by norm_num)

/-- C4: the centering shift maps the element at (r, c) of the unshifted
transform to ((r + H/2) % H, (c + W/2) % W) of the shifted array, with
integer division; the zero-frequency element (0, 0) lands at the floor
center (H/2, W/2). -/
theorem C4_fftshift_mapping (H W : ℕ) (a : ℕ → ℕ → ℂ) (r c : ℕ)
    (hr : r < H) (hc : c < W) :
    fftshift H W a ((r + H / 2) % H) ((c + W / 2) % W) = a r c ∧
    fftshift H W a (H / 2) (W / 2) = a 0 0 := by
  constructor
  · unfold fftshift
    rw [shiftIndex_roll H r hr, shiftIndex_roll W c hc]
  · unfold fftshift
    rw [shiftIndex_half, shiftIndex_half]

/-- C4 witness on a 5×5 (odd-sized) array at index (1, 3). -/
theorem C4_fftshift_mapping_witness :
    fftshift 5 5 exArr ((1 + 5 / 2) % 5) ((3 + 5 / 2) % 5) = exArr 1 3 ∧
    fftshift 5 5 exArr (5 / 2) (5 / 2) = exArr 0 0 :=
  C4_fftshift_mapping 5 5 exArr 1 3 (by norm_num) (by norm_num)

/-- C5: each logMagnitude entry equals `log1p` of the magnitude of the
corresponding shifted-spectrum entry, and is non-negative. -/
theorem C5_log_magnitude (N : ℕ) (R : Raster) (r c : ℕ)
    (hr : r < N) (hc : c < N) :
    ((compute N R).2.getD r []).getD c 0
        = Real.log (1 + Complex.abs (spectrum N R r c)) ∧
    0 ≤ ((compute N R).2.getD r []).getD c 0 := by
  rw [(compute_entry N R r c hr hc).2]
  unfold logMagnitude magnitude
  refine ⟨rfl, Real.log_nonneg ?_⟩
  have h := Complex.abs.nonneg (spectrum N R r c)
  linarith

/-- C5 witness at N = 1, the blank raster, index (0, 0). -/
theorem C5_log_magnitude_witness :
    ((compute 1 blank).2.getD 0 []).getD 0 0
        = Real.log (1 + Complex.abs (spectrum 1 blank 0 0)) ∧
    0 ≤ ((compute 1 blank).2.getD 0 []).getD 0 0 :=
  C5_log_magnitude 1 blank 0 0 (by norm_num) (by norm_num)

/-- C6: for a valid raster (all samples ≤ 255) every normalized value lies
in [0, 1]; the all-white raster normalizes to all zeros. -/
theorem C6_normalized_range (R : Raster) (h : ValidRaster R) (r c : ℕ) :
    (0 ≤ normalized R r c ∧ normalized R r c ≤ 1) ∧ normalized blank r c = 0 := by
  constructor
  · have hv : (R r c : ℝ) ≤ 255 := by exact_mod_cast h r c
    have hv0 : (0 : ℝ) ≤ (R r c : ℝ) := Nat.cast_nonneg _
    unfold normalized
    constructor
    · have hle : (R r c : ℝ) / 255 ≤ 1 := by
        rw [div_le_one (by norm_num)]
        exact hv
      linarith
    · have hge : (0 : ℝ) ≤ (R r c : ℝ) / 255 := div_nonneg hv0 (by norm_num)
      linarith
  · unfold normalized blank
    norm_num

/-- C6 witness: the blank raster is valid, at index (0, 0). -/
theorem C6_normalized_range_witness :
    (0 ≤ normalized blank 0 0 ∧ normalized blank 0 0 ≤ 1) ∧
    normalized blank 0 0 = 0 :=
  C6_normalized_range blank (fun _ _ => le_refl 255) 0 0

/-- C7: the DC coefficient of the 2-D DFT of the normalized array equals
the sum of all normalized samples, and the shifted spectrum holds that
value at the center index (N/2, N/2). -/
theorem C7_dc_term (N : ℕ) (R : Raster) :
    referenceDFT2 N N (fun r c => ((normalized R r c : ℝ) : ℂ)) 0 0
        = ∑ r in Finset.range N, ∑ c in Finset.range N,
            ((normalized R r c : ℝ) : ℂ) ∧
    spectrum N R (N / 2) (N / 2)
        = ∑ r in Finset.range N, ∑ c in Finset.range N,
            ((normalized R r c : ℝ) : ℂ) := by
  refine ⟨referenceDFT2_zero_zero N N _, ?_⟩
  unfold spectrum fftshift
  rw [shiftIndex_half, fft2_eq_referenceDFT2]
  exact referenceDFT2_zero_zero N N _

/-- C9: after any sequence of drawing operations, `clear` leaves every
sample of the raster at 255 (blank). -/
theorem C9_clear_blank (ops : List ((ℤ × ℤ) × (ℤ × ℤ) × ℕ)) (r c : ℕ) :
    clear (applyOps ops blank) r c = 255 := rfl

/-- C10: drawing a line from (0,0) to (0,0) with stroke width 1 (a
parameter of `drawLine`) blackens exactly the pixel (0,0) and leaves
every other sample unchanged. -/
theorem C10_draw_point (R : Raster) :
    drawLine (0, 0) (0, 0) 1 R 0 0 = 0 ∧
    (∀ r c : ℕ, ¬(r = 0 ∧ c = 0) → drawLine (0, 0) (0, 0) 1 R r c = R r c) := by
  constructor
  · have hc : covers (0, 0) (0, 0) 1 (((0 : ℕ) : ℤ), ((0 : ℕ) : ℤ)) = true := by
      unfold covers segDistSq
      norm_num
    unfold drawLine
    rw [hc]
    simp
  · intro r c h
    unfold drawLine
    rw [if_neg]
    intro hcov
    have h1 : 1 ≤ r ∨ 1 ≤ c := by omega
    simp only [covers, segDistSq, decide_eq_true_eq] at hcov
    norm_num at hcov
    have hcon : (1 : ℚ) ≤ (c : ℚ) * (c : ℚ) + (r : ℚ) * (r : ℚ) := by
      rcases h1 with h1 | h1
      · have hr1 : (1 : ℚ) ≤ (r : ℚ) := by exact_mod_cast h1
        nlinarith [sq_nonneg ((c : ℚ))]
      · have hc1 : (1 : ℚ) ≤ (c : ℚ) := by exact_mod_cast h1
        nlinarith [sq_nonneg ((r : ℚ))]
    nlinarith

/-- C3 counterexample: for the 2×2 raster with an inked top row, the
shifted spectrum at (0,0) differs from the reference DFT at (0,0), so the
spectrum produced by compute is not the unshifted transform. -/
theorem C3_spectrum_counterexample :
    spectrum 2 raster2 0 0
      ≠ referenceDFT2 2 2 (fun r c => ((normalized raster2 r c : ℝ) : ℂ)) 0 0 := by
  have hs : shiftIndex 2 0 = 1 := rfl
  have hL : spectrum 2 raster2 0 0 = 0 := by
    unfold spectrum fftshift
    rw [hs]
    unfold fft2
    rw [dft1_two, dft1_two, dft1_two]
    norm_num [normalized, raster2]
  have hR : referenceDFT2 2 2 (fun r c => ((normalized raster2 r c : ℝ) : ℂ)) 0 0
      = 2 := by
    rw [referenceDFT2_zero_zero]
    rw [Finset.sum_range_succ, Finset.sum_range_succ, Finset.sum_range_zero]
    rw [Finset.sum_range_succ, Finset.sum_range_succ, Finset.sum_range_zero]
    norm_num [normalized, raster2]
  rw [hL, hR]
  norm_num

/-- C3 (amended): the spectrum produced by compute equals the centering
shift applied to the reference 2-D DFT of the normalized array: the DFT
coefficient at (u, v) appears at index ((u + N/2) % N, (v + N/2) % N) of
the spectrum. -/
theorem C3_spectrum_is_shifted_dft (N : ℕ) (R : Raster) (u v : ℕ)
    (hu : u < N) (hv : v < N) :
    spectrum N R ((u + N / 2) % N) ((v + N / 2) % N)
      = referenceDFT2 N N (fun r c => ((normalized R r c : ℝ) : ℂ)) u v := by
  unfold spectrum fftshift
  rw [shiftIndex_roll N u hu, shiftIndex_roll N v hv, fft2_eq_referenceDFT2]

/-- C3 witness at N = 2, the blank raster, coefficient (0, 1). -/
theorem C3_spectrum_is_shifted_dft_witness :
    spectrum 2 blank ((0 + 2 / 2) % 2) ((1 + 2 / 2) % 2)
      = referenceDFT2 2 2 (fun r c => ((normalized blank r c : ℝ) : ℂ)) 0 1 :=
  C3_spectrum_is_shifted_dft 2 blank 0 1 (by norm_num) (by norm_num)

/-- C8 counterexample: with k = -1 on a constant array, the magnitude of
the scaled transform is 1 while k times the original magnitude is -1, so
the claim fails for negative constants. -/
theorem C8_scaling_counterexample :
    ¬ (Complex.abs (fft2 1 1 (fun r c => (((-1 : ℝ) * exRealArr r c : ℝ) : ℂ)) 0 0)
        = (-1 : ℝ) * Complex.abs (fft2 1 1 (fun r c => ((exRealArr r c : ℝ) : ℂ)) 0 0)) := by
  intro hEq
  have h1 : fft2 1 1 (fun r c => (((-1 : ℝ) * exRealArr r c : ℝ) : ℂ)) 0 0
      = ((-1 : ℝ) : ℂ) := by
    unfold fft2 dft1 exRealArr
    simp only [Finset.sum_range_one]
    norm_num
  have h2 : fft2 1 1 (fun r c => ((exRealArr r c : ℝ) : ℂ)) 0 0 = 1 := by
    unfold fft2 dft1 exRealArr
    simp only [Finset.sum_range_one]
    norm_num
  rw [h1, h2] at hEq
  rw [Complex.abs_ofReal] at hEq
  norm_num at hEq

/-- C8 (amended): scaling every sample of a real array by a nonnegative
constant k scales every 2-D transform magnitude by k. -/
theorem C8_scaling_magnitude (H W : ℕ) (a : ℕ → ℕ → ℝ) (k : ℝ) (hk : 0 ≤ k)
    (u v : ℕ) :
    Complex.abs (fft2 H W (fun r c => ((k * a r c : ℝ) : ℂ)) u v)
      = k * Complex.abs (fft2 H W (fun r c => ((a r c : ℝ) : ℂ)) u v) := by
  have h : (fun r c => ((k * a r c : ℝ) : ℂ))
      = fun r c => (k : ℂ) * ((a r c : ℝ) : ℂ) := by
    funext r c
    push_cast
    ring
  rw [h, fft2_const_mul, map_mul, Complex.abs_ofReal, abs_of_nonneg hk]

/-- C8 witness with k = 2 on a constant 2×2 array at coefficient (0, 0). -/
theorem C8_scaling_magnitude_witness :
    Complex.abs (fft2 2 2 (fun r c => (((2 : ℝ) * exRealArr r c : ℝ) : ℂ)) 0 0)
      = 2 * Complex.abs (fft2 2 2 (fun r c => ((exRealArr r c : ℝ) : ℂ)) 0 0) :=
  C8_scaling_magnitude 2 2 exRealArr 2 (by norm_num) 0 0

/-- C10 witness: concrete checks at pixel (0,0) and pixel (2,3). -/
theorem C10_draw_point_witness :
    drawLine (0, 0) (0, 0) 1 blank 2 3 = blank 2 3 ∧ ¬((2 : ℕ) = 0 ∧ (3 : ℕ) = 0) :=
  ⟨(C10_draw_point blank).2 2 3 (by decide), by decide⟩

end FFTApp
